import Mathlib

/-!
Verification of the sprint-calendar period calculator
(`src/lib/date-utils.ts`, `src/lib/sprint-calc.ts`).

A JavaScript `Date`, as this program uses it, always denotes a local
calendar day: dates are built with `new Date(y, m, d)` or normalized with
`setHours(0, 0, 0, 0)` before every comparison.  We model such a value by
its day number — the count of calendar days since 1970-01-01.  Under this
model `addDays` (implemented with `setDate`, which rolls month and year
boundaries by proper calendar rules) is integer addition, and
`Date.prototype.getDay` (0 = Sunday; 1970-01-01 was a Thursday, weekday 4)
is `(dayNumber + 4) mod 7`, using the mathematical (nonnegative) modulus.
-/

namespace SprintCalendar

/-- Models `addDays` from `date-utils.ts`: `result.setDate(result.getDate()
+ days)` moves exactly `days` calendar days, rolling across month and year
boundaries. -/
def addDays (date : Int) (days : Int) : Int := date + days

/-- Models `getDayOfWeek` from `date-utils.ts` (`date.getDay()`),
0 = Sunday, …, 6 = Saturday. -/
def getDayOfWeek (date : Int) : Int := (date + 4) % 7

/-- Models `isSameDay` from `date-utils.ts`: equal year, month and day,
which for day-granular dates is equality of day numbers. -/
def isSameDay (a b : Int) : Bool := a == b

/-- Day number of the Gregorian calendar date `y-m-d` (month `1..12`),
i.e. the value our model assigns to the JavaScript date
`new Date(y, m - 1, d)`.  Standard civil-calendar conversion; Lean's
floor division on `Int` makes the era arithmetic exact. -/
def dateYMD (y m d : Int) : Int :=
  let yAdj := if m ≤ 2 then y - 1 else y
  let era := yAdj / 400
  let yoe := yAdj - era * 400
  let mp := if 2 < m then m - 3 else m + 9
  let doy := (153 * mp + 2) / 5 + d - 1
  let doe := yoe * 365 + yoe / 4 - yoe / 100 + doy
  era * 146097 + doe - 719468

/-- Models the `PeriodType` string union from `sprint-calc.ts`. -/
inductive PeriodType
  | development
  | qa
  | release
  | none
deriving DecidableEq

/-- Models the `SprintPeriod` interface from `sprint-calc.ts`.  The
optional `sprintId` field is omitted: every consumer modelled here either
ignores it (`getCurrentPeriodType`, `getPeriodTypeForDate`) or recomputes
the id from `releaseDate` (`getAllPeriodsForDate`); the recomputed string
`Sprint-y/m/d` is in bijection with the release day, so we model the id by
the `releaseDate` day number itself. -/
structure SprintPeriod where
  developmentStart : Int
  developmentEnd : Int
  qaStart : Int
  qaEnd : Int
  releaseDate : Int
  nextSprintStart : Int
deriving DecidableEq

/-- Models `getNearestDayOfWeek` from `sprint-calc.ts`.  The JavaScript
truncating `%` agrees with Lean's `%` on the dividends that occur when
`dayOfWeek` lies in `0..6` (they are then nonnegative, since
`getDayOfWeek` is in `0..6`), which is the range the program supplies. -/
def getNearestDayOfWeek (dayOfWeek : Int) (baseDate : Int) (future : Bool) : Int :=
  let currentDayOfWeek := getDayOfWeek baseDate
  if currentDayOfWeek = dayOfWeek ∧ future = false then
    baseDate
  else
    let daysToAdd : Int :=
      if future then
        let d0 := (dayOfWeek + 7 - currentDayOfWeek) % 7
        if d0 = 0 then 7 else d0
      else
        let d0 := (dayOfWeek - currentDayOfWeek + 7) % 7
        if d0 = 0 then 0 else d0 - 7
    addDays baseDate daysToAdd

/-- Models `calculateSprintPeriods` from `sprint-calc.ts`.
`Math.floor(devDays / 2)` is Lean's floor division `devDays / 2`. -/
def calculateSprintPeriods (startDate : Int) (devDays qaDays : Int) : SprintPeriod :=
  let developmentEnd := addDays startDate (devDays - 1)
  let qaStart := addDays developmentEnd 1
  let qaEnd := addDays qaStart (qaDays - 1)
  let startDayOfWeek := getDayOfWeek startDate
  let releaseDate :=
    if getDayOfWeek qaEnd = startDayOfWeek then qaEnd
    else getNearestDayOfWeek startDayOfWeek (addDays qaEnd 1) true
  let nextSprintStartOffset := devDays / 2
  let nextSprintStart := addDays startDate nextSprintStartOffset
  ⟨startDate, developmentEnd, qaStart, qaEnd, releaseDate, nextSprintStart⟩

/-- Models `getNextNSprints` from `sprint-calc.ts`: repeatedly compute a
period and restart from its `nextSprintStart`.  (The `sprintId` string the
loop also assigns is not modelled; see `SprintPeriod`.) -/
def getNextNSprints (startDate : Int) (devDays qaDays : Int) : Nat → List SprintPeriod
  | 0 => []
  | n + 1 =>
    let period := calculateSprintPeriods startDate devDays qaDays
    period :: getNextNSprints period.nextSprintStart devDays qaDays n

/-- Models the first loop of `getPreviousNSprints`: apply
`addDays(·, -halfDevDays)` `count` times. -/
def stepBack (halfDevDays : Int) (startDate : Int) : Nat → Int
  | 0 => startDate
  | n + 1 => stepBack halfDevDays (addDays startDate (-halfDevDays)) n

/-- Models `getPreviousNSprints` from `sprint-calc.ts`: step the start date
back by `Math.floor(devDays / 2)` once per requested sprint, then run the
same forward loop as `getNextNSprints` (the source duplicates that loop
body verbatim, modulo the unmodelled `sprintId` assignment). -/
def getPreviousNSprints (startDate : Int) (devDays qaDays : Int) (count : Nat) : List SprintPeriod :=
  let halfDevDays := devDays / 2
  let firstStartDate := stepBack halfDevDays startDate count
  getNextNSprints firstStartDate devDays qaDays count

/-- Models `getCurrentPeriodType` from `sprint-calc.ts`.  The
`setHours(0, 0, 0, 0)` normalization of every operand is the identity in
the day-number model. -/
def getCurrentPeriodType (date : Int) (sprintPeriod : SprintPeriod) : PeriodType :=
  if sprintPeriod.developmentStart ≤ date ∧ date ≤ sprintPeriod.developmentEnd then
    PeriodType.development
  else if sprintPeriod.qaStart ≤ date ∧ date ≤ sprintPeriod.qaEnd then
    PeriodType.qa
  else if isSameDay date sprintPeriod.releaseDate then
    PeriodType.release
  else
    PeriodType.none

/-- Models the `PeriodInfo` interface from `sprint-calc.ts`; `sprintId`
models the `Sprint-y/m/d` string by the release day it encodes. -/
structure PeriodInfo where
  type : PeriodType
  sprintId : Int
  startDate : Int
deriving DecidableEq

/-- Models the `typeOrder` table of the final comparator in
`getAllPeriodsForDate`.  The table has no `none` entry; `none` never
occurs among collected results, so its value here is immaterial. -/
def typeOrder : PeriodType → Int
  | PeriodType.development => 0
  | PeriodType.qa => 1
  | PeriodType.release => 2
  | PeriodType.none => 3

/-- Insert `x` before the first element `y` with `le x y`.  Together with
`stableSort` this is a stable sort, which models `Array.prototype.sort`
(stable per the ECMAScript specification) for comparators that are total
preorders — all comparators in this program subtract integer keys. -/
def insertSorted (le : α → α → Bool) (x : α) : List α → List α
  | [] => [x]
  | y :: ys => if le x y then x :: y :: ys else y :: insertSorted le x ys

/-- Stable insertion sort; see `insertSorted`. -/
def stableSort (le : α → α → Bool) : List α → List α
  | [] => []
  | x :: xs => insertSorted le x (stableSort le xs)

/-- Models the `findIndex`-and-overwrite step of `getAllPeriodsForDate`:
the first collected entry carrying `sprintId` is replaced when the new
type has higher display priority (`release` beats both, `qa` beats
`development`); otherwise it is kept. -/
def updateExisting (t : PeriodType) (sprintId startDate : Int) : List PeriodInfo → List PeriodInfo
  | [] => []
  | r :: rs =>
    if r.sprintId = sprintId then
      (if t = PeriodType.release ∨ (t = PeriodType.qa ∧ r.type = PeriodType.development) then
        (⟨t, sprintId, startDate⟩ : PeriodInfo)
      else r) :: rs
    else r :: updateExisting t sprintId startDate rs

/-- Models one iteration of the `for (const sprint of sortedPeriods)` loop
body in `getAllPeriodsForDate`: skip non-claiming sprints, skip everything
once three entries are collected, overwrite an entry with the same sprint
id, otherwise append a new entry. -/
def processSprint (date : Int) (results : List PeriodInfo) (sprint : SprintPeriod) : List PeriodInfo :=
  let t := getCurrentPeriodType date sprint
  if t = PeriodType.none then results
  else if 3 ≤ results.length then results
  else if results.any (fun r => r.sprintId == sprint.releaseDate) then
    updateExisting t sprint.releaseDate sprint.developmentStart results
  else
    results ++ [⟨t, sprint.releaseDate, sprint.developmentStart⟩]

/-- Models `getAllPeriodsForDate` from `sprint-calc.ts`: sort the sprints
by ascending release date, run the collection loop, then re-sort the
collected entries by the `typeOrder` comparator alone. -/
def getAllPeriodsForDate (date : Int) (sprintPeriods : List SprintPeriod) : List PeriodInfo :=
  let sortedPeriods :=
    stableSort (fun a b => decide (a.releaseDate ≤ b.releaseDate)) sprintPeriods
  let results := sortedPeriods.foldl (processSprint date) []
  stableSort (fun a b => decide (typeOrder a.type ≤ typeOrder b.type)) results

/-- Models `getPeriodTypeForDate` from `sprint-calc.ts`: return the first
non-`none` classification in the list's given order. -/
def getPeriodTypeForDate (date : Int) : List SprintPeriod → PeriodType
  | [] => PeriodType.none
  | period :: rest =>
    let periodType := getCurrentPeriodType date period
    if periodType ≠ PeriodType.none then periodType
    else getPeriodTypeForDate date rest

/-- The ordering the spec asserts for classification entries: primarily
ascending release date (encoded in `sprintId`), ties broken by ascending
type precedence. -/
abbrev releaseThenType (a b : PeriodInfo) : Prop :=
  a.sprintId < b.sprintId ∨ (a.sprintId = b.sprintId ∧ typeOrder a.type ≤ typeOrder b.type)

/-- The ordering the code actually produces: primarily ascending type
precedence, ties broken by ascending release date (encoded in
`sprintId`). -/
abbrev typeThenRelease (a b : PeriodInfo) : Prop :=
  typeOrder a.type < typeOrder b.type ∨
    (typeOrder a.type = typeOrder b.type ∧ a.sprintId ≤ b.sprintId)

/-- Claim C10's description of the per-day query, written from its words:
the period type of the first range in the list's given order that claims
the date, and `none` when no range claims it. -/
def firstClaimedType (date : Int) : List SprintPeriod → PeriodType
  | [] => PeriodType.none
  | period :: rest =>
    match getCurrentPeriodType date period with
    | PeriodType.none => firstClaimedType date rest
    | t => t

/-! Unfolding lemmas for the fields of a computed sprint period. -/

theorem calc_developmentStart (s : Int) (d q : Int) :
    (calculateSprintPeriods s d q).developmentStart = s := rfl

theorem calc_developmentEnd (s : Int) (d q : Int) :
    (calculateSprintPeriods s d q).developmentEnd = s + (d - 1) := rfl

theorem calc_qaStart (s : Int) (d q : Int) :
    (calculateSprintPeriods s d q).qaStart = s + (d - 1) + 1 := rfl

theorem calc_qaEnd (s : Int) (d q : Int) :
    (calculateSprintPeriods s d q).qaEnd = s + (d - 1) + 1 + (q - 1) := rfl

theorem calc_nextSprintStart (s : Int) (d q : Int) :
    (calculateSprintPeriods s d q).nextSprintStart = s + d / 2 := rfl

theorem calc_releaseDate (s : Int) (d q : Int) :
    (calculateSprintPeriods s d q).releaseDate =
      if getDayOfWeek (s + (d - 1) + 1 + (q - 1)) = getDayOfWeek s then
        s + (d - 1) + 1 + (q - 1)
      else
        getNearestDayOfWeek (getDayOfWeek s) (s + (d - 1) + 1 + (q - 1) + 1) true := rfl

theorem getNearestDayOfWeek_future (t : Int) (b : Int) :
    getNearestDayOfWeek t b true =
      b + (if (t + 7 - getDayOfWeek b) % 7 = 0 then 7 else (t + 7 - getDayOfWeek b) % 7) := by
  simp [getNearestDayOfWeek, addDays]

/-- The sprint ids carried by a list of collected entries. -/
def resultIds (l : List PeriodInfo) : List Int := l.map PeriodInfo.sprintId

/-! General lemmas about the stable insertion sort. -/

theorem insertSorted_perm (le : α → α → Bool) (x : α) (l : List α) :
    (insertSorted le x l).Perm (x :: l) := by
  induction l with
  | nil => exact List.Perm.refl _
  | cons y ys ih =>
    simp only [insertSorted]
    split_ifs with h
    · exact List.Perm.refl _
    · exact (ih.cons y).trans (List.Perm.swap x y ys)

theorem stableSort_perm (le : α → α → Bool) (l : List α) :
    (stableSort le l).Perm l := by
  induction l with
  | nil => exact List.Perm.refl _
  | cons x xs ih => exact (insertSorted_perm le x (stableSort le xs)).trans (ih.cons x)

theorem mem_insertSorted {le : α → α → Bool} {x z : α} {l : List α} :
    z ∈ insertSorted le x l ↔ z = x ∨ z ∈ l := by
  rw [(insertSorted_perm le x l).mem_iff, List.mem_cons]

theorem mem_stableSort {le : α → α → Bool} {z : α} {l : List α} :
    z ∈ stableSort le l ↔ z ∈ l := (stableSort_perm le l).mem_iff

theorem insertSorted_pairwise (le : α → α → Bool)
    (htot : ∀ a b, le a b = true ∨ le b a = true)
    (htrans : ∀ a b c, le a b = true → le b c = true → le a c = true)
    (x : α) {l : List α} (hl : l.Pairwise (fun a b => le a b = true)) :
    (insertSorted le x l).Pairwise (fun a b => le a b = true) := by
  induction l with
  | nil => simp [insertSorted]
  | cons y ys ih =>
    rcases List.pairwise_cons.mp hl with ⟨hy, hys⟩
    simp only [insertSorted]
    split_ifs with h
    · refine List.pairwise_cons.mpr ⟨?_, hl⟩
      intro z hz
      rcases List.mem_cons.mp hz with rfl | hz2
      · exact h
      · exact htrans x y z h (hy z hz2)
    · refine List.pairwise_cons.mpr ⟨?_, ih hys⟩
      intro z hz
      rcases mem_insertSorted.mp hz with rfl | hz2
      · rcases htot z y with h1 | h1
        · exact absurd h1 h
        · exact h1
      · exact hy z hz2

theorem stableSort_pairwise (le : α → α → Bool)
    (htot : ∀ a b, le a b = true ∨ le b a = true)
    (htrans : ∀ a b c, le a b = true → le b c = true → le a c = true)
    (l : List α) :
    (stableSort le l).Pairwise (fun a b => le a b = true) := by
  induction l with
  | nil => simp [stableSort]
  | cons x xs ih => exact insertSorted_pairwise le htot htrans x ih

/-! Basic lemmas about the collection loop of `getAllPeriodsForDate`. -/

theorem getAllPeriodsForDate_eq (date : Int) (l : List SprintPeriod) :
    getAllPeriodsForDate date l
      = stableSort (fun a b => decide (typeOrder a.type ≤ typeOrder b.type))
          ((stableSort (fun a b => decide (a.releaseDate ≤ b.releaseDate)) l).foldl
            (processSprint date) []) := rfl

theorem updateExisting_ids (t : PeriodType) (sprintId startDate : Int) (l : List PeriodInfo) :
    resultIds (updateExisting t sprintId startDate l) = resultIds l := by
  induction l with
  | nil => rfl
  | cons r rs ih =>
    simp only [updateExisting]
    split_ifs with h1 h2
    · simp [resultIds, h1]
    · simp [resultIds]
    · simp only [resultIds, List.map_cons] at ih ⊢
      rw [ih]

theorem updateExisting_length (t : PeriodType) (sprintId startDate : Int) (l : List PeriodInfo) :
    (updateExisting t sprintId startDate l).length = l.length := by
  have h := congrArg List.length (updateExisting_ids t sprintId startDate l)
  simpa [resultIds] using h

theorem processSprint_none {date : Int} {s : SprintPeriod} (acc : List PeriodInfo)
    (h : getCurrentPeriodType date s = PeriodType.none) :
    processSprint date acc s = acc := by
  simp [processSprint, h]

theorem processSprint_full {date : Int} {s : SprintPeriod} {acc : List PeriodInfo}
    (h : 3 ≤ acc.length) :
    processSprint date acc s = acc := by
  simp only [processSprint]
  split_ifs with h1 <;> rfl

theorem foldl_processSprint_full {date : Int} {acc : List PeriodInfo}
    (h : 3 ≤ acc.length) (l : List SprintPeriod) :
    List.foldl (processSprint date) acc l = acc := by
  induction l with
  | nil => rfl
  | cons s ss ih => rw [List.foldl_cons, processSprint_full h]; exact ih

theorem processSprint_length_le {date : Int} {s : SprintPeriod} {acc : List PeriodInfo}
    (h : acc.length ≤ 3) :
    (processSprint date acc s).length ≤ 3 := by
  simp only [processSprint]
  split_ifs with h1 h2 h3
  · exact h
  · exact h
  · rw [updateExisting_length]; exact h
  · simp only [List.length_append, List.length_cons, List.length_nil]
    omega

theorem foldl_processSprint_length_le {date : Int} (l : List SprintPeriod) :
    ∀ acc : List PeriodInfo, acc.length ≤ 3 →
      (List.foldl (processSprint date) acc l).length ≤ 3 := by
  induction l with
  | nil => intro acc h; exact h
  | cons s ss ih =>
    intro acc h
    rw [List.foldl_cons]
    exact ih _ (processSprint_length_le h)

theorem processSprint_ids_mono {date : Int} {s : SprintPeriod} {acc : List PeriodInfo}
    {x : Int} (hx : x ∈ resultIds acc) :
    x ∈ resultIds (processSprint date acc s) := by
  simp only [processSprint]
  split_ifs with h1 h2 h3
  · exact hx
  · exact hx
  · rw [updateExisting_ids]; exact hx
  · simp only [resultIds, List.map_append, List.mem_append]
    exact Or.inl hx

theorem foldl_ids_mono {date : Int} (l : List SprintPeriod) :
    ∀ (acc : List PeriodInfo) (x : Int), x ∈ resultIds acc →
      x ∈ resultIds (List.foldl (processSprint date) acc l) := by
  induction l with
  | nil => intro acc x hx; exact hx
  | cons s ss ih =>
    intro acc x hx
    rw [List.foldl_cons]
    exact ih _ x (processSprint_ids_mono hx)

theorem processSprint_ids_bound {date : Int} {s : SprintPeriod} {acc : List PeriodInfo}
    {x : Int} (hx : x ∈ resultIds (processSprint date acc s)) :
    x ∈ resultIds acc ∨ x = s.releaseDate := by
  simp only [processSprint] at hx
  split_ifs at hx with h1 h2 h3
  · exact Or.inl hx
  · exact Or.inl hx
  · rw [updateExisting_ids] at hx; exact Or.inl hx
  · simp only [resultIds, List.map_append, List.mem_append, List.map_cons, List.map_nil,
      List.mem_singleton] at hx
    rcases hx with h | h
    · exact Or.inl h
    · exact Or.inr h

theorem foldl_processSprint_none {date : Int} {l : List SprintPeriod}
    (h : ∀ s ∈ l, getCurrentPeriodType date s = PeriodType.none) (acc : List PeriodInfo) :
    List.foldl (processSprint date) acc l = acc := by
  induction l with
  | nil => rfl
  | cons s ss ih =>
    rw [List.foldl_cons, processSprint_none acc (h s (List.mem_cons_self s ss))]
    exact ih (fun s' hs' => h s' (List.mem_cons_of_mem _ hs'))

/-- Claim C9: classifying any probe date against an empty range list, or a
probe date claimed by no range, yields the empty classification list. -/
theorem claim9_vacuous (date : Int) (l : List SprintPeriod) :
    getAllPeriodsForDate date [] = []
    ∧ ((∀ s ∈ l, getCurrentPeriodType date s = PeriodType.none) →
        getAllPeriodsForDate date l = []) := by
  refine ⟨rfl, fun h => ?_⟩
  rw [getAllPeriodsForDate_eq, foldl_processSprint_none]
  · rfl
  · intro s hs
    exact h s (mem_stableSort.mp hs)

/-- Claim C9, witnessed on a one-range list whose range lies entirely
before the probe date 100. -/
theorem claim9_vacuous_witness :
    (∀ s ∈ ([⟨0, 1, 2, 3, 4, 5⟩] : List SprintPeriod),
        getCurrentPeriodType 100 s = PeriodType.none)
    ∧ getAllPeriodsForDate 100 [⟨0, 1, 2, 3, 4, 5⟩] = [] :=
  ⟨by decide, (claim9_vacuous 100 [⟨0, 1, 2, 3, 4, 5⟩]).2 (by decide)⟩

/-! Closed forms for the forward and backward sprint chains. -/

theorem getNextNSprints_eq (devDays qaDays : Int) :
    ∀ (n : Nat) (s : Int),
      getNextNSprints s devDays qaDays n
        = (List.range n).map
            (fun (i : Nat) => calculateSprintPeriods (s + devDays / 2 * (i : Int)) devDays qaDays) := by
  intro n
  induction n with
  | zero => intro s; rfl
  | succ m ih =>
    intro s
    have hstep : getNextNSprints s devDays qaDays (m + 1)
        = calculateSprintPeriods s devDays qaDays
            :: getNextNSprints (s + devDays / 2) devDays qaDays m := by
      simp [getNextNSprints, calc_nextSprintStart]
    rw [hstep, ih, List.range_succ_eq_map, List.map_cons, List.map_map]
    congr 1
    · congr 1
      push_cast
      ring
    · congr 1
      funext i
      simp only [Function.comp_apply]
      congr 1
      push_cast
      ring

theorem stepBack_eq (h : Int) : ∀ (n : Nat) (s : Int), stepBack h s n = s - h * n := by
  intro n
  induction n with
  | zero => intro s; simp [stepBack]
  | succ m ih =>
    intro s
    rw [stepBack, addDays, ih]
    push_cast
    ring

theorem getPreviousNSprints_eq (s devDays qaDays : Int) (count : Nat) :
    getPreviousNSprints s devDays qaDays count
      = (List.range count).map
          (fun (i : Nat) => calculateSprintPeriods
            (s - devDays / 2 * ((count : Int) - (i : Int))) devDays qaDays) := by
  simp only [getPreviousNSprints]
  rw [stepBack_eq, getNextNSprints_eq]
  congr 1
  funext i
  congr 1
  ring

/-- Claim C3 counterexample: with `devDays = 7`, `qaDays = 7`, `count = 1`,
the single backward sprint from anchor 2025-03-11 starts 2025-03-08 —
`floor(devDays / 2) = 3` days back — not the claimed fixed 7 days back
(2025-03-04). -/
theorem claim3_counterexample :
    (getPreviousNSprints (dateYMD 2025 3 11) 7 7 1).map SprintPeriod.developmentStart
      = [dateYMD 2025 3 8]
    ∧ dateYMD 2025 3 8 ≠ addDays (dateYMD 2025 3 11) (-7) := by decide

/-- Claim C3 as amended: `getPreviousNSprints` returns exactly `count`
ranges in ascending chronological order, the `i`-th (0-based) being the
full recomputed range whose development start is the anchor minus
`floor(devDays / 2) * (count - i)` days — fixed `floor(devDays / 2)`-day
backward steps, not 7-day steps. -/
theorem claim3_amended (start devDays qaDays : Int) (count : Nat) (hdev : 1 ≤ devDays) :
    getPreviousNSprints start devDays qaDays count
      = (List.range count).map
          (fun (i : Nat) => calculateSprintPeriods
            (start - devDays / 2 * ((count : Int) - (i : Int))) devDays qaDays)
    ∧ (getPreviousNSprints start devDays qaDays count).length = count
    ∧ (getPreviousNSprints start devDays qaDays count).Pairwise
        (fun a b => a.developmentStart ≤ b.developmentStart) := by
  have heq := getPreviousNSprints_eq start devDays qaDays count
  have hhalf : 0 ≤ devDays / 2 := Int.ediv_nonneg (by omega) (by norm_num)
  refine ⟨heq, ?_, ?_⟩
  · rw [heq]; simp
  · rw [heq]
    refine List.Pairwise.map _ ?_ (List.pairwise_lt_range count)
    intro i j hij
    simp only [calc_developmentStart]
    have hc : (count : Int) - (j : Int) ≤ (count : Int) - (i : Int) := by omega
    have := mul_le_mul_of_nonneg_left hc hhalf
    linarith

/-- Claim C3 amended, witnessed at anchor 2025-03-11 with 7-day phases and
`count = 2`. -/
theorem claim3_amended_witness :
    (1 : Int) ≤ 7 ∧
      (getPreviousNSprints (dateYMD 2025 3 11) 7 7 2
          = (List.range 2).map
              (fun (i : Nat) => calculateSprintPeriods
                (dateYMD 2025 3 11 - 7 / 2 * ((2 : Int) - (i : Int))) 7 7)
      ∧ (getPreviousNSprints (dateYMD 2025 3 11) 7 7 2).length = 2
      ∧ (getPreviousNSprints (dateYMD 2025 3 11) 7 7 2).Pairwise
          (fun a b => a.developmentStart ≤ b.developmentStart)) :=
  ⟨by decide, claim3_amended (dateYMD 2025 3 11) 7 7 2 (by decide)⟩

/-- Claim C1: the spec and the repository README state that
`calculateSprintPeriods(2025-02-25, 7, 7)` releases on 2025-03-11 (the
nearest start-weekday date at or after `qaEnd + 1`), but the code, having
missed the weekday match on `qaEnd`, searches forward from `qaEnd + 1`
with the same-day-excluded `future` search and lands a week late, on
2025-03-18. -/
theorem claim1_release_code_bug :
    (calculateSprintPeriods (dateYMD 2025 2 25) 7 7).developmentStart = dateYMD 2025 2 25
    ∧ (calculateSprintPeriods (dateYMD 2025 2 25) 7 7).developmentEnd = dateYMD 2025 3 3
    ∧ (calculateSprintPeriods (dateYMD 2025 2 25) 7 7).qaStart = dateYMD 2025 3 4
    ∧ (calculateSprintPeriods (dateYMD 2025 2 25) 7 7).qaEnd = dateYMD 2025 3 10
    ∧ getDayOfWeek (dateYMD 2025 3 11) = getDayOfWeek (dateYMD 2025 2 25)
    ∧ (calculateSprintPeriods (dateYMD 2025 2 25) 7 7).releaseDate = dateYMD 2025 3 18
    ∧ dateYMD 2025 3 18 ≠ dateYMD 2025 3 11 := by decide

/-- Claim C2: the spec and the repository README chain sprint N+1's
development start to sprint N's QA start (2025-03-04 for the sprint begun
2025-02-25 with 7-day phases), but the code sets `nextSprintStart` to
`startDate + floor(devDays / 2)` = 2025-02-28, which `getNextNSprints`
then uses as the second range's development start. -/
theorem claim2_chaining_code_bug :
    (calculateSprintPeriods (dateYMD 2025 2 25) 7 7).nextSprintStart = dateYMD 2025 2 28
    ∧ (calculateSprintPeriods (dateYMD 2025 2 25) 7 7).qaStart = dateYMD 2025 3 4
    ∧ (getNextNSprints (dateYMD 2025 2 25) 7 7 2).map SprintPeriod.developmentStart
        = [dateYMD 2025 2 25, dateYMD 2025 2 28]
    ∧ dateYMD 2025 2 28 ≠ dateYMD 2025 3 4 := by decide

/-- Claim C6 counterexample: with `devDays = 7`, `qaDays = 1` the QA end of
the sprint begun 2025-02-25 falls back on the start weekday, so the code
sets `releaseDate = qaEnd` and the claimed strict bound
`qaEnd < releaseDate` fails. -/
theorem claim6_counterexample :
    ¬ ((calculateSprintPeriods (dateYMD 2025 2 25) 7 1).qaEnd
        < (calculateSprintPeriods (dateYMD 2025 2 25) 7 1).releaseDate) := by decide

/-- Claim C6 as amended: every range computed by `calculateSprintPeriods`
with positive day counts satisfies `developmentStart ≤ developmentEnd <
qaStart ≤ qaEnd ≤ releaseDate`, where the final bound is an equality
exactly when `qaEnd` already falls on the start weekday and is strict
otherwise. -/
theorem claim6_amended (start : Int) (devDays qaDays : Int)
    (hd : 1 ≤ devDays) (hq : 1 ≤ qaDays) :
    (calculateSprintPeriods start devDays qaDays).developmentStart
        ≤ (calculateSprintPeriods start devDays qaDays).developmentEnd
    ∧ (calculateSprintPeriods start devDays qaDays).developmentEnd
        < (calculateSprintPeriods start devDays qaDays).qaStart
    ∧ (calculateSprintPeriods start devDays qaDays).qaStart
        ≤ (calculateSprintPeriods start devDays qaDays).qaEnd
    ∧ (calculateSprintPeriods start devDays qaDays).qaEnd
        ≤ (calculateSprintPeriods start devDays qaDays).releaseDate
    ∧ (getDayOfWeek (calculateSprintPeriods start devDays qaDays).qaEnd ≠ getDayOfWeek start →
        (calculateSprintPeriods start devDays qaDays).qaEnd
          < (calculateSprintPeriods start devDays qaDays).releaseDate) := by
  refine ⟨?_, ?_, ?_, ?_, ?_⟩
  · simp only [calc_developmentStart, calc_developmentEnd]; omega
  · simp only [calc_developmentEnd, calc_qaStart]; omega
  · simp only [calc_qaStart, calc_qaEnd]; omega
  · simp only [calc_qaEnd, calc_releaseDate, getNearestDayOfWeek_future, getDayOfWeek]
    split_ifs <;> omega
  · simp only [calc_qaEnd, calc_releaseDate, getNearestDayOfWeek_future, getDayOfWeek]
    split_ifs <;> omega

/-- Claim C6 amended, witnessed at `start = 2025-02-25`, `devDays = 7`,
`qaDays = 7`. -/
theorem claim6_amended_witness :
    (1 : Int) ≤ 7 ∧
      ((calculateSprintPeriods (dateYMD 2025 2 25) 7 7).developmentStart
          ≤ (calculateSprintPeriods (dateYMD 2025 2 25) 7 7).developmentEnd
      ∧ (calculateSprintPeriods (dateYMD 2025 2 25) 7 7).developmentEnd
          < (calculateSprintPeriods (dateYMD 2025 2 25) 7 7).qaStart
      ∧ (calculateSprintPeriods (dateYMD 2025 2 25) 7 7).qaStart
          ≤ (calculateSprintPeriods (dateYMD 2025 2 25) 7 7).qaEnd
      ∧ (calculateSprintPeriods (dateYMD 2025 2 25) 7 7).qaEnd
          ≤ (calculateSprintPeriods (dateYMD 2025 2 25) 7 7).releaseDate
      ∧ (getDayOfWeek (calculateSprintPeriods (dateYMD 2025 2 25) 7 7).qaEnd
            ≠ getDayOfWeek (dateYMD 2025 2 25) →
          (calculateSprintPeriods (dateYMD 2025 2 25) 7 7).qaEnd
            < (calculateSprintPeriods (dateYMD 2025 2 25) 7 7).releaseDate)) :=
  ⟨by decide, claim6_amended (dateYMD 2025 2 25) 7 7 (by decide) (by decide)⟩

/-- Claim C7 counterexample: searching backward for Sunday (0) from
Tuesday 2025-02-25, the code applies the offset `((0 - 2 + 7) mod 7) - 7 =
-2`, not the claimed negation `-((0 - 2 + 7) mod 7) = -5`. -/
theorem claim7_counterexample :
    getNearestDayOfWeek 0 (dateYMD 2025 2 25) false = addDays (dateYMD 2025 2 25) (-2)
    ∧ addDays (dateYMD 2025 2 25) (-2)
        ≠ addDays (dateYMD 2025 2 25)
            (-((0 - getDayOfWeek (dateYMD 2025 2 25) + 7) % 7)) := by decide

/-- Claim C7 as amended: for a target weekday in `0..6`, a backward search
from a matching date returns it unchanged; a forward search from a
matching date advances exactly 7 days; otherwise the forward offset is
`(target - current + 7) mod 7` and the backward offset is that same
residue minus 7 (equivalently, the negation of
`(current - target + 7) mod 7`). -/
theorem claim7_amended (dayOfWeek : Int) (baseDate : Int)
    (h0 : 0 ≤ dayOfWeek) (h6 : dayOfWeek ≤ 6) :
    (getDayOfWeek baseDate = dayOfWeek →
        getNearestDayOfWeek dayOfWeek baseDate false = baseDate)
    ∧ (getDayOfWeek baseDate = dayOfWeek →
        getNearestDayOfWeek dayOfWeek baseDate true = addDays baseDate 7)
    ∧ (getDayOfWeek baseDate ≠ dayOfWeek →
        getNearestDayOfWeek dayOfWeek baseDate true
          = addDays baseDate ((dayOfWeek - getDayOfWeek baseDate + 7) % 7))
    ∧ (getDayOfWeek baseDate ≠ dayOfWeek →
        getNearestDayOfWeek dayOfWeek baseDate false
          = addDays baseDate ((dayOfWeek - getDayOfWeek baseDate + 7) % 7 - 7)) := by
  refine ⟨?_, ?_, ?_, ?_⟩ <;>
    · intro h
      simp only [getNearestDayOfWeek, addDays, getDayOfWeek, Bool.false_eq_true,
        Bool.true_eq_false, and_false, and_true, if_false, if_true, ite_true, ite_false,
        eq_self_iff_true, not_true, not_false_iff] at h ⊢
      split_ifs <;> omega

/-- Claim C7 amended, witnessed at target weekday 2 and base date
2025-02-25. -/
theorem claim7_amended_witness :
    (0 : Int) ≤ 2 ∧ (2 : Int) ≤ 6 ∧
      ((getDayOfWeek (dateYMD 2025 2 25) = 2 →
          getNearestDayOfWeek 2 (dateYMD 2025 2 25) false = dateYMD 2025 2 25)
      ∧ (getDayOfWeek (dateYMD 2025 2 25) = 2 →
          getNearestDayOfWeek 2 (dateYMD 2025 2 25) true = addDays (dateYMD 2025 2 25) 7)
      ∧ (getDayOfWeek (dateYMD 2025 2 25) ≠ 2 →
          getNearestDayOfWeek 2 (dateYMD 2025 2 25) true
            = addDays (dateYMD 2025 2 25) ((2 - getDayOfWeek (dateYMD 2025 2 25) + 7) % 7))
      ∧ (getDayOfWeek (dateYMD 2025 2 25) ≠ 2 →
          getNearestDayOfWeek 2 (dateYMD 2025 2 25) false
            = addDays (dateYMD 2025 2 25)
                ((2 - getDayOfWeek (dateYMD 2025 2 25) + 7) % 7 - 7))) :=
  ⟨by decide, by decide, claim7_amended 2 (dateYMD 2025 2 25) (by decide) (by decide)⟩

/-- Claim C8: every computed range has a development phase of exactly
`devDays` calendar days and a QA phase of exactly `qaDays` calendar days,
and the underlying day arithmetic rolls correctly across month and year
boundaries (witnessed on a year boundary, a non-leap February and a leap
February). -/
theorem claim8_lengths (start : Int) (devDays qaDays : Int)
    (hd : 1 ≤ devDays) (hq : 1 ≤ qaDays) :
    (calculateSprintPeriods start devDays qaDays).developmentEnd
        - (calculateSprintPeriods start devDays qaDays).developmentStart + 1 = devDays
    ∧ (calculateSprintPeriods start devDays qaDays).qaEnd
        - (calculateSprintPeriods start devDays qaDays).qaStart + 1 = qaDays
    ∧ addDays (dateYMD 2024 12 31) 1 = dateYMD 2025 1 1
    ∧ addDays (dateYMD 2025 2 28) 1 = dateYMD 2025 3 1
    ∧ addDays (dateYMD 2024 2 28) 1 = dateYMD 2024 2 29 := by
  refine ⟨?_, ?_, by decide, by decide, by decide⟩
  · simp only [calc_developmentStart, calc_developmentEnd]; omega
  · simp only [calc_qaStart, calc_qaEnd]; omega

/-- Claim C8, witnessed at the year-boundary-crossing sprint begun
2024-12-30 with 7-day phases. -/
theorem claim8_lengths_witness :
    (1 : Int) ≤ 7 ∧
      ((calculateSprintPeriods (dateYMD 2024 12 30) 7 7).developmentEnd
          - (calculateSprintPeriods (dateYMD 2024 12 30) 7 7).developmentStart + 1 = 7
      ∧ (calculateSprintPeriods (dateYMD 2024 12 30) 7 7).qaEnd
          - (calculateSprintPeriods (dateYMD 2024 12 30) 7 7).qaStart + 1 = 7
      ∧ addDays (dateYMD 2024 12 31) 1 = dateYMD 2025 1 1
      ∧ addDays (dateYMD 2025 2 28) 1 = dateYMD 2025 3 1
      ∧ addDays (dateYMD 2024 2 28) 1 = dateYMD 2024 2 29) :=
  ⟨by decide, claim8_lengths (dateYMD 2024 12 30) 7 7 (by decide) (by decide)⟩

/-- Claim C10: `getPeriodTypeForDate` returns the period type of the first
range, in the list's given order, that claims the probe date (`none` when
no range claims it); concretely, permuting the list can change the answer,
so the result tracks input order rather than release-date priority. -/
theorem claim10_first_match :
    (∀ (date : Int) (l : List SprintPeriod),
        getPeriodTypeForDate date l = firstClaimedType date l)
    ∧ getPeriodTypeForDate 5
        [⟨0, 1, 4, 6, 9, 0⟩, ⟨4, 6, 7, 8, 9, 0⟩] = PeriodType.qa
    ∧ getPeriodTypeForDate 5
        [⟨4, 6, 7, 8, 9, 0⟩, ⟨0, 1, 4, 6, 9, 0⟩] = PeriodType.development := by
  refine ⟨?_, by decide, by decide⟩
  intro date l
  induction l with
  | nil => rfl
  | cons p ps ih =>
    simp only [getPeriodTypeForDate, firstClaimedType]
    cases h : getCurrentPeriodType date p <;> simp [h, ih]

/-! Lemmas for the ordering produced by `getAllPeriodsForDate`. -/

theorem sortedPeriods_pairwise (l : List SprintPeriod) :
    (stableSort (fun a b => decide (a.releaseDate ≤ b.releaseDate)) l).Pairwise
      (fun a b => a.releaseDate ≤ b.releaseDate) := by
  have htot : ∀ a b : SprintPeriod,
      decide (a.releaseDate ≤ b.releaseDate) = true
        ∨ decide (b.releaseDate ≤ a.releaseDate) = true := by
    intro a b
    rcases le_total a.releaseDate b.releaseDate with h | h <;> simp [h]
  have htrans : ∀ a b c : SprintPeriod,
      decide (a.releaseDate ≤ b.releaseDate) = true →
      decide (b.releaseDate ≤ c.releaseDate) = true →
      decide (a.releaseDate ≤ c.releaseDate) = true := by
    intro a b c hab hbc
    simp only [decide_eq_true_eq] at hab hbc ⊢
    omega
  have h := stableSort_pairwise (fun a b : SprintPeriod => decide (a.releaseDate ≤ b.releaseDate))
    htot htrans l
  exact h.imp (fun hab => by simpa using hab)

theorem foldl_ids_sortedStrict (date : Int) :
    ∀ (l : List SprintPeriod) (acc : List PeriodInfo),
      l.Pairwise (fun a b => a.releaseDate ≤ b.releaseDate) →
      (resultIds acc).Pairwise (fun a b => a < b) →
      (∀ x ∈ resultIds acc, ∀ s ∈ l, x ≤ s.releaseDate) →
      (resultIds (List.foldl (processSprint date) acc l)).Pairwise (fun a b => a < b) := by
  intro l
  induction l with
  | nil => intro acc _ hacc _; exact hacc
  | cons p ps ih =>
    intro acc hpw hacc hle
    rcases List.pairwise_cons.mp hpw with ⟨hhead, htail⟩
    rw [List.foldl_cons]
    refine ih _ htail ?_ ?_
    · simp only [processSprint]
      split_ifs with h1 h2 h3
      · exact hacc
      · exact hacc
      · rw [updateExisting_ids]; exact hacc
      · have hlt : ∀ x ∈ resultIds acc, x < p.releaseDate := by
          intro x hx
          have hxle := hle x hx p (List.mem_cons_self p ps)
          have hne : x ≠ p.releaseDate := by
            intro heq
            subst heq
            apply h3
            simp only [resultIds, List.mem_map] at hx
            rcases hx with ⟨r, hr, hrid⟩
            exact List.any_eq_true.mpr ⟨r, hr, by simp [hrid]⟩
          omega
        simp only [resultIds, List.map_append, List.map_cons, List.map_nil]
        refine List.pairwise_append.mpr ⟨hacc, ?_, ?_⟩
        · simp
        · intro x hx y hy
          simp only [List.mem_singleton] at hy
          subst hy
          exact hlt x hx
    · intro x hx s hs
      rcases processSprint_ids_bound hx with h | h
      · exact hle x h s (List.mem_cons_of_mem _ hs)
      · subst h
        exact hhead s hs

theorem insertSorted_typeThenRelease (x : PeriodInfo) {l : List PeriodInfo}
    (hl : l.Pairwise typeThenRelease)
    (hx : ∀ y ∈ l, x.sprintId < y.sprintId) :
    (insertSorted (fun a b => decide (typeOrder a.type ≤ typeOrder b.type)) x l).Pairwise
      typeThenRelease := by
  induction l with
  | nil => simp [insertSorted]
  | cons y ys ih =>
    rcases List.pairwise_cons.mp hl with ⟨hy, hys⟩
    simp only [insertSorted]
    split_ifs with h
    · have hxy : typeOrder x.type ≤ typeOrder y.type := by simpa using h
      refine List.pairwise_cons.mpr ⟨?_, hl⟩
      intro z hz
      rcases List.mem_cons.mp hz with rfl | hz2
      · rcases eq_or_lt_of_le hxy with h1 | h1
        · exact Or.inr ⟨h1, le_of_lt (hx z (List.mem_cons_self _ _))⟩
        · exact Or.inl h1
      · have hyz : typeOrder y.type ≤ typeOrder z.type := by
          rcases hy z hz2 with h1 | ⟨h1, _⟩
          · exact le_of_lt h1
          · exact le_of_eq h1
        rcases eq_or_lt_of_le (le_trans hxy hyz) with h1 | h1
        · exact Or.inr ⟨h1, le_of_lt (hx z (List.mem_cons_of_mem _ hz2))⟩
        · exact Or.inl h1
    · have hyx : typeOrder y.type < typeOrder x.type := by
        have h1 : ¬ typeOrder x.type ≤ typeOrder y.type := by simpa using h
        omega
      refine List.pairwise_cons.mpr
        ⟨?_, ih hys (fun z hz => hx z (List.mem_cons_of_mem _ hz))⟩
      intro z hz
      rcases mem_insertSorted.mp hz with rfl | hz2
      · exact Or.inl hyx
      · exact hy z hz2

theorem stableSort_typeThenRelease :
    ∀ {l : List PeriodInfo}, (resultIds l).Pairwise (fun a b => a < b) →
      (stableSort (fun a b => decide (typeOrder a.type ≤ typeOrder b.type)) l).Pairwise
        typeThenRelease := by
  intro l
  induction l with
  | nil => intro _; simp [stableSort]
  | cons x xs ih =>
    intro hl
    simp only [resultIds, List.map_cons, List.pairwise_cons] at hl
    rcases hl with ⟨hhead, htail⟩
    refine insertSorted_typeThenRelease x (ih htail) ?_
    intro y hy
    exact hhead y.sprintId (List.mem_map_of_mem _ (mem_stableSort.mp hy))

/-- Claim C4 counterexample: a probe date claimed as QA by a sprint
releasing on day 20 and as development by a sprint releasing on day 30 is
classified with the development entry first, so the output is ordered by
type precedence, not primarily by ascending release date as claimed. -/
theorem claim4_counterexample :
    getAllPeriodsForDate 10 [⟨0, 1, 9, 11, 20, 0⟩, ⟨8, 12, 13, 14, 30, 0⟩]
        = [⟨PeriodType.development, 30, 8⟩, ⟨PeriodType.qa, 20, 0⟩]
    ∧ ¬ releaseThenType ⟨PeriodType.development, 30, 8⟩ ⟨PeriodType.qa, 20, 0⟩ := by decide

/-- Claim C4 as amended: the classification list is sorted primarily by
ascending type precedence (development, then qa, then release), with ties
broken by ascending release date (the final comparator sorts by type
alone, and the stable sort preserves the release-date order established by
the first pass). -/
theorem claim4_amended (date : Int) (sprintPeriods : List SprintPeriod) :
    (getAllPeriodsForDate date sprintPeriods).Pairwise typeThenRelease := by
  rw [getAllPeriodsForDate_eq]
  refine stableSort_typeThenRelease ?_
  refine foldl_ids_sortedStrict date _ [] (sortedPeriods_pairwise sprintPeriods) ?_ ?_
  · simp [resultIds]
  · simp [resultIds]

/-! Lemmas for the cardinality and priority behaviour of
`getAllPeriodsForDate`. -/

theorem resultIds_stableSort_mem {le : PeriodInfo → PeriodInfo → Bool}
    {F : List PeriodInfo} {y : Int} :
    y ∈ resultIds (stableSort le F) ↔ y ∈ resultIds F := by
  simp only [resultIds, List.mem_map]
  constructor
  · rintro ⟨r, hr, hid⟩
    exact ⟨r, mem_stableSort.mp hr, hid⟩
  · rintro ⟨r, hr, hid⟩
    exact ⟨r, mem_stableSort.mpr hr, hid⟩

theorem foldl_smallest_win (date : Int) :
    ∀ (l : List SprintPeriod) (acc : List PeriodInfo),
      l.Pairwise (fun a b => a.releaseDate ≤ b.releaseDate) →
      (∀ x ∈ resultIds acc, ∀ s ∈ l, x ≤ s.releaseDate) →
      acc.length ≤ 3 →
      ∀ s ∈ l, getCurrentPeriodType date s ≠ PeriodType.none →
        s.releaseDate ∈ resultIds (List.foldl (processSprint date) acc l)
        ∨ ∀ x ∈ resultIds (List.foldl (processSprint date) acc l), x ≤ s.releaseDate := by
  intro l
  induction l with
  | nil => intro acc _ _ _ s hs; exact absurd hs (List.not_mem_nil s)
  | cons p ps ih =>
    intro acc hpw hle hlen s hs hclaims
    rcases List.pairwise_cons.mp hpw with ⟨hhead, htail⟩
    rw [List.foldl_cons]
    rcases List.mem_cons.mp hs with rfl | hs2
    · by_cases hfull : 3 ≤ acc.length
      · rw [processSprint_full hfull, foldl_processSprint_full hfull]
        right
        intro x hx
        exact hle x hx s (List.mem_cons_self s ps)
      · left
        refine foldl_ids_mono ps _ _ ?_
        simp only [processSprint]
        split_ifs with h1 h2
        · exact absurd h1 hclaims
        · rw [updateExisting_ids]
          rcases List.any_eq_true.mp h2 with ⟨r, hr, hrid⟩
          have hid : r.sprintId = s.releaseDate := by simpa using hrid
          exact hid ▸ List.mem_map_of_mem _ hr
        · simp [resultIds]
    · refine ih (processSprint date acc p) htail ?_ (processSprint_length_le hlen) s hs2 hclaims
      intro x hx s1 hs1
      rcases processSprint_ids_bound hx with h | h
      · exact hle x h s1 (List.mem_cons_of_mem _ hs1)
      · subst h
        exact hhead s1 hs1

theorem foldl_distinct_count (date : Int) :
    ∀ (l : List SprintPeriod) (acc : List PeriodInfo),
      (∀ s ∈ l, getCurrentPeriodType date s ≠ PeriodType.none) →
      l.Pairwise (fun a b => a.releaseDate ≠ b.releaseDate) →
      (∀ s ∈ l, s.releaseDate ∉ resultIds acc) →
      acc.length ≤ 3 →
      (List.foldl (processSprint date) acc l).length = min 3 (acc.length + l.length) := by
  intro l
  induction l with
  | nil =>
    intro acc _ _ _ hlen
    simp only [List.foldl_nil, List.length_nil]
    omega
  | cons p ps ih =>
    intro acc hcl hpw hnin hlen
    rcases List.pairwise_cons.mp hpw with ⟨hhead, htail⟩
    rw [List.foldl_cons]
    by_cases hfull : 3 ≤ acc.length
    · rw [processSprint_full hfull, foldl_processSprint_full hfull]
      simp only [List.length_cons]
      omega
    · have hstep : processSprint date acc p
          = acc ++ [⟨getCurrentPeriodType date p, p.releaseDate, p.developmentStart⟩] := by
        simp only [processSprint]
        split_ifs with h1 h2
        · exact absurd h1 (hcl p (List.mem_cons_self p ps))
        · exfalso
          rcases List.any_eq_true.mp h2 with ⟨r, hr, hrid⟩
          have hid : r.sprintId = p.releaseDate := by simpa using hrid
          exact hnin p (List.mem_cons_self p ps) (hid ▸ List.mem_map_of_mem _ hr)
        · rfl
      rw [hstep, ih]
      · simp only [List.length_append, List.length_cons, List.length_nil]
        omega
      · intro s1 hs1
        exact hcl s1 (List.mem_cons_of_mem _ hs1)
      · exact htail
      · intro s1 hs1
        simp only [resultIds, List.map_append, List.map_cons, List.map_nil, List.mem_append,
          List.mem_singleton]
        rintro (h | h)
        · exact hnin s1 (List.mem_cons_of_mem _ hs1) h
        · exact hhead s1 hs1 h.symm
      · simp only [List.length_append, List.length_cons, List.length_nil]
        omega

/-- Claim C5 counterexample: four distinct overlapping ranges that share
one release date (hence one sprint id) all claim probe date 10, yet the
classification list has length 1, not the claimed 3 — the id-based
deduplication collapses them. -/
theorem claim5_counterexample :
    (4 : Nat) ≤ ([⟨0, 50, 51, 60, 100, 0⟩, ⟨1, 50, 51, 60, 100, 0⟩,
        ⟨2, 50, 51, 60, 100, 0⟩, ⟨3, 50, 51, 60, 100, 0⟩] : List SprintPeriod).length
    ∧ (∀ s ∈ ([⟨0, 50, 51, 60, 100, 0⟩, ⟨1, 50, 51, 60, 100, 0⟩,
        ⟨2, 50, 51, 60, 100, 0⟩, ⟨3, 50, 51, 60, 100, 0⟩] : List SprintPeriod),
          getCurrentPeriodType 10 s ≠ PeriodType.none)
    ∧ (getAllPeriodsForDate 10 [⟨0, 50, 51, 60, 100, 0⟩, ⟨1, 50, 51, 60, 100, 0⟩,
        ⟨2, 50, 51, 60, 100, 0⟩, ⟨3, 50, 51, 60, 100, 0⟩]).length = 1 := by decide

/-- Claim C5 as amended: the classification list never exceeds 3 entries;
a claiming sprint whose release day is dropped releases no sooner than any
kept entry (the soonest-releasing sprints win); and 4 or more ranges all
claiming the probe date yield exactly 3 entries provided their release
dates — and hence their sprint ids — are pairwise distinct. -/
theorem claim5_amended (date : Int) (l : List SprintPeriod) :
    (getAllPeriodsForDate date l).length ≤ 3
    ∧ (∀ s ∈ l, getCurrentPeriodType date s ≠ PeriodType.none →
        s.releaseDate ∉ resultIds (getAllPeriodsForDate date l) →
        ∀ r ∈ getAllPeriodsForDate date l, r.sprintId ≤ s.releaseDate)
    ∧ ((∀ s ∈ l, getCurrentPeriodType date s ≠ PeriodType.none) →
        l.Pairwise (fun a b => a.releaseDate ≠ b.releaseDate) →
        4 ≤ l.length →
        (getAllPeriodsForDate date l).length = 3) := by
  have hlen : (getAllPeriodsForDate date l).length
      = (List.foldl (processSprint date)
          ([] : List PeriodInfo)
          (stableSort (fun a b => decide (a.releaseDate ≤ b.releaseDate)) l)).length := by
    rw [getAllPeriodsForDate_eq]
    exact (stableSort_perm _ _).length_eq
  refine ⟨?_, ?_, ?_⟩
  · rw [hlen]
    exact foldl_processSprint_length_le _ [] (by simp)
  · intro s hs hclaims hnotin r hr
    have hdisj := foldl_smallest_win date
      (stableSort (fun a b => decide (a.releaseDate ≤ b.releaseDate)) l) []
      (sortedPeriods_pairwise l) (by simp [resultIds]) (by simp)
      s (mem_stableSort.mpr hs) hclaims
    rcases hdisj with h | h
    · exfalso
      apply hnotin
      rw [getAllPeriodsForDate_eq]
      exact resultIds_stableSort_mem.mpr h
    · have hrF : r ∈ List.foldl (processSprint date) ([] : List PeriodInfo)
          (stableSort (fun a b => decide (a.releaseDate ≤ b.releaseDate)) l) := by
        rw [getAllPeriodsForDate_eq] at hr
        exact mem_stableSort.mp hr
      exact h r.sprintId (List.mem_map_of_mem _ hrF)
  · intro hcl hpw hcount
    rw [hlen, foldl_distinct_count date _ []]
    · rw [(stableSort_perm (fun a b => decide (a.releaseDate ≤ b.releaseDate)) l).length_eq]
      omega
    · intro s hs
      exact hcl s (mem_stableSort.mp hs)
    · refine ((stableSort_perm _ l).pairwise_iff ?_).mpr hpw
      intro a b hab
      exact fun h => hab h.symm
    · intro s _
      simp [resultIds]
    · simp

/-- Claim C5 amended, witnessed: four overlapping ranges with distinct
release dates all claiming probe date 0 produce exactly 3 entries. -/
theorem claim5_amended_witness :
    (getAllPeriodsForDate 0 [⟨0, 5, 6, 8, 10, 0⟩, ⟨0, 5, 6, 8, 20, 0⟩,
        ⟨0, 5, 6, 8, 30, 0⟩, ⟨0, 5, 6, 8, 40, 0⟩]).length = 3 :=
  (claim5_amended 0 [⟨0, 5, 6, 8, 10, 0⟩, ⟨0, 5, 6, 8, 20, 0⟩,
      ⟨0, 5, 6, 8, 30, 0⟩, ⟨0, 5, 6, 8, 40, 0⟩]).2.2 (by decide) (by decide) (by decide)

end SprintCalendar
